import Mathlib

/-!
Verification of the result-set patch engine (`createPatches` / `applyPatches`).

This file is a shallow embedding of the incremental result-set patch engine:
the differencer `createPatches` and the applier `applyPatches`, translated
from the TypeScript source, together with theorems settling the spec's
claims about them.

Modelling decisions:
* A SQLite row value is one of: null, a number, a string, or an opaque
  binary blob.  JavaScript strict (in)equality `!==` on these scalars is
  modelled by decidable equality; blobs are compared by reference in the
  source, modelled here by an opaque reference token (a natural number).
* A `SQLiteRowRecord` (a plain JS object) is modelled as the list of its
  own enumerable key/value pairs in enumeration order; `obj[key]` is
  `List.lookup`, which returns `none` where JS returns `undefined`.
* `undefined` for a whole result set (the `Unknown` held result) is
  `Option.none`.
* In the source, `next[patch.index] = patch.value` on a copied array is an
  in-range element replacement, modelled by `List.set`.  (For an
  out-of-range index the JS assignment would lengthen the array; that case
  is left unspecified by the design (§7/§9) and no claim exercises it.)
-/

/-- A scalar SQLite value as it appears in a row record: null, number,
string, or an opaque binary value compared by reference. -/
inductive Value where
  | vnull : Value
  | num : Int → Value
  | str : String → Value
  | blob : Nat → Value
deriving DecidableEq, Repr

/-- A `SQLiteRowRecord`: a JS object mapping field names to scalar values,
modelled as its own-key/value pairs in enumeration order. -/
abbrev Row := List (String × Value)

/-- A result set: an ordered sequence of rows. -/
abbrev ResultSet := List Row

/-- The `Patch` tagged union from the source: `replaceAll`, `replaceAt`,
and `purge`. -/
inductive Patch where
  | replaceAll : ResultSet → Patch
  | replaceAt : Nat → Row → Patch
  | purge : Patch
deriving DecidableEq, Repr

/-- The inner loop of `createPatches`:
`for (const key in pItem) { if (pItem[key] !== nItem[key]) { ...; break } }`.
A row changed iff some key of the previous row maps to a strictly
different value (possibly `undefined`, i.e. `none`) in the next row. -/
def rowChanged (pItem nItem : Row) : Bool :=
  pItem.any fun kv => decide (List.lookup kv.1 nItem ≠ some kv.2)

/-- The `for (let i = 0; ...)` loop of `createPatches`, accumulating one
`replaceAt` patch per changed row, in ascending index order.  The first
argument is the current loop index.  (The source only runs this loop when
`previous.length === next.length`, so the uneven case is unreachable
there.) -/
def diffRows : Nat → ResultSet → ResultSet → List Patch
  | _, [], _ => []
  | _, _ :: _, [] => []
  | i, pItem :: ps, nItem :: ns =>
    (if rowChanged pItem nItem then [Patch.replaceAt i nItem] else [])
      ++ diffRows (i + 1) ps ns

/-- `createPatches` from the source: diff a previous held result
(`none` = `undefined`) against a freshly computed next result. -/
def createPatches (previous : Option ResultSet) (next : ResultSet) :
    List Patch :=
  match previous with
  | none => [Patch.replaceAll next]
  | some prev =>
    if prev.length = 0 ∧ next.length = 0 then []
    else if prev.length ≠ next.length then [Patch.replaceAll next]
    else
      let replaceAtOps := diffRows 0 prev next
      if replaceAtOps.length = 0 then []
      else if replaceAtOps.length = prev.length then [Patch.replaceAll next]
      else replaceAtOps

/-- `applyPatches` from the source: fold a patch sequence left-to-right
over a held result (`none` = `undefined`). -/
def applyPatches (patches : List Patch) : Option ResultSet → Option ResultSet :=
  fun current =>
    patches.foldl
      (fun a patch =>
        match patch with
        | Patch.replaceAll value => some value
        | Patch.replaceAt index value =>
          match a with
          | none => none
          | some rows => some (rows.set index value)
        | Patch.purge => none)
      current

/-- Row `i` is "changed" in the sense of the differencer's loop: some field
name present in `previous[i]` maps to a strictly different value at the same
field name in `next[i]`.  (Out-of-range indices count as unchanged, since an
empty row has no fields.) -/
def changedAt (previous next : ResultSet) (i : Nat) : Bool :=
  rowChanged (previous.getD i []) (next.getD i [])

/-- The index carried by a `replaceAt` patch, if any. -/
def patchIdx : Patch → Option Nat
  | Patch.replaceAt i _ => some i
  | _ => none

theorem rowChanged_eq_false_iff {pItem nItem : Row} :
    rowChanged pItem nItem = false ↔
      ∀ kv ∈ pItem, List.lookup kv.1 nItem = some kv.2 := by
  simp [rowChanged]

/-- The differencer's loop, characterized declaratively: when the two result
sets have equal length, `diffRows i` emits exactly one `replaceAt` patch per
changed row, in ascending index order (offset by `i`). -/
theorem diffRows_eq_map_filter :
    ∀ (i : Nat) (p n : ResultSet), p.length = n.length →
      diffRows i p n =
        ((List.range p.length).filter (fun j => changedAt p n j)).map
          (fun j => Patch.replaceAt (i + j) (n.getD j [])) := by
  intro i p
  induction p generalizing i with
  | nil => intro n h; simp [diffRows]
  | cons pr ps ih =>
    intro n h
    cases n with
    | nil => simp at h
    | cons nr ns =>
      have hlen : ps.length = ns.length := by
        simpa using h
      have h0 : changedAt (pr :: ps) (nr :: ns) 0 = rowChanged pr nr := rfl
      have hs : ∀ j : Nat,
          changedAt (pr :: ps) (nr :: ns) (j + 1) = changedAt ps ns j := by
        intro j; rfl
      simp only [diffRows, ih (i + 1) ns hlen, List.length_cons,
        List.range_succ_eq_map]
      rw [List.filter_cons, h0]
      have hfil :
          List.filter (fun x => changedAt (pr :: ps) (nr :: ns) x.succ)
              (List.range ps.length)
            = List.filter (fun j => changedAt ps ns j) (List.range ps.length) :=
        List.filter_congr fun j _ => hs j
      have htail :
          List.map (fun j => Patch.replaceAt (i + 1 + j) (ns.getD j []))
              (List.filter (fun j => changedAt ps ns j) (List.range ps.length))
            = List.map (fun x => Patch.replaceAt (i + x.succ) ((nr :: ns).getD x.succ []))
              (List.filter (fun x => changedAt (pr :: ps) (nr :: ns) x.succ)
                (List.range ps.length)) := by
        rw [hfil]
        refine List.map_congr_left fun j hj => ?_
        simp [Nat.add_assoc, Nat.add_comm 1 j]
      by_cases hc : rowChanged pr nr
      · simp only [hc, if_true, List.singleton_append, List.map_cons,
          List.filter_map, List.map_map, Function.comp_def]
        rw [htail]
        simp
      · simp only [hc, Bool.false_eq_true, if_false, List.nil_append,
          List.filter_map, List.map_map, Function.comp_def]
        rw [htail]

theorem set_length_append (l t : ResultSet) (a b : Row) :
    (l ++ a :: t).set l.length b = l ++ b :: t := by
  induction l with
  | nil => rfl
  | cons x l ih => simp [List.set, ih]

theorem applyPatches_append (xs ys : List Patch) (c : Option ResultSet) :
    applyPatches (xs ++ ys) c = applyPatches ys (applyPatches xs c) := by
  simp [applyPatches, List.foldl_append]

/-- Applying the loop's own patches to the previous result (under any common
prefix `l`) rewrites every changed row to its next version; if every
unchanged row was already equal to its next version, this reconstructs the
next result. -/
theorem applyPatches_diffRows (p n : ResultSet)
    (h : List.Forall₂ (fun pr nr => rowChanged pr nr = false → pr = nr) p n) :
    ∀ l : ResultSet,
      applyPatches (diffRows l.length p n) (some (l ++ p)) = some (l ++ n) := by
  induction h with
  | nil => intro l; simp [diffRows, applyPatches]
  | @cons pr nr ps ns hpn _ ih =>
    intro l
    have hstep :
        applyPatches (diffRows (l.length + 1) ps ns) (some (l ++ nr :: ps))
          = some (l ++ nr :: ns) := by
      have := ih (l ++ [nr])
      simpa using this
    simp only [diffRows]
    by_cases hc : rowChanged pr nr
    · rw [applyPatches_append]
      have h1 :
          applyPatches [Patch.replaceAt l.length nr] (some (l ++ pr :: ps))
            = some (l ++ nr :: ps) := by
        simp [applyPatches, set_length_append]
      rw [if_pos hc, h1, hstep]
    · have hpr : pr = nr := hpn (by simpa using hc)
      subst hpr
      rw [if_neg hc]
      simpa using hstep

/-- If two rows list the same field names in the same order, those names are
duplicate-free, and the differencer's field comparison finds no change, the
rows are equal. -/
theorem row_eq_of_unchanged :
    ∀ pr nr : Row, pr.map Prod.fst = nr.map Prod.fst →
      (pr.map Prod.fst).Nodup → rowChanged pr nr = false → pr = nr := by
  intro pr
  induction pr with
  | nil =>
    intro nr hk _ _
    cases nr with
    | nil => rfl
    | cons _ _ => simp at hk
  | cons kv pr' ih =>
    intro nr hk hd hc
    cases nr with
    | nil => simp at hk
    | cons kv2 nr' =>
      obtain ⟨k, v⟩ := kv
      obtain ⟨k2, v2⟩ := kv2
      simp only [List.map_cons, List.cons.injEq] at hk
      obtain ⟨hk1, hk2⟩ := hk
      subst hk1
      rw [rowChanged_eq_false_iff] at hc
      simp only [List.map_cons, List.nodup_cons] at hd
      have hv : v = v2 := by
        have := hc (k, v) (by simp)
        simpa [List.lookup] using this.symm
      subst hv
      have hc' : rowChanged pr' nr' = false := by
        rw [rowChanged_eq_false_iff]
        intro kv hm
        have hne : (kv.1 == k) = false := by
          refine beq_eq_false_iff_ne.mpr fun he => hd.1 ?_
          exact he ▸ List.mem_map_of_mem Prod.fst hm
        have := hc kv (List.mem_cons_of_mem _ hm)
        simpa [List.lookup, hne] using this
      rw [ih nr' hk2 hd.2 hc']

theorem createPatches_some (p n : ResultSet) :
    createPatches (some p) n =
      if p.length = 0 ∧ n.length = 0 then []
      else if p.length ≠ n.length then [Patch.replaceAll n]
      else if (diffRows 0 p n).length = 0 then []
      else if (diffRows 0 p n).length = p.length then [Patch.replaceAll n]
      else diffRows 0 p n := rfl

theorem diffRows_zero_eq (p n : ResultSet) (h : p.length = n.length) :
    diffRows 0 p n =
      ((List.range p.length).filter (fun j => changedAt p n j)).map
        (fun j => Patch.replaceAt j (n.getD j [])) := by
  rw [diffRows_eq_map_filter 0 p n h]
  refine List.map_congr_left fun j hj => ?_
  simp

/-- C4: for every concrete result set `next`, diffing against an unknown
previous yields exactly `[ReplaceAll next]`. -/
theorem createPatches_unknown_previous (next : ResultSet) :
    createPatches none next = [Patch.replaceAll next] := rfl

/-- C5: whenever the previous and next result sets have different lengths,
the diff is exactly `[ReplaceAll next]`; a row-count change is never
expressed as per-row edits. -/
theorem createPatches_length_change (p n : ResultSet) (h : p.length ≠ n.length) :
    createPatches (some p) n = [Patch.replaceAll n] := by
  have h0 : ¬(p.length = 0 ∧ n.length = 0) := by omega
  rw [createPatches_some, if_neg h0, if_pos h]

/-- Witness for C5 at previous = `[]`, next = `[{a:1}]`. -/
theorem createPatches_length_change_witness :
    createPatches (some []) [[("a", Value.num 1)]]
      = [Patch.replaceAll [[("a", Value.num 1)]]] :=
  createPatches_length_change [] [[("a", Value.num 1)]] (by decide)

/-- C6: if previous and next have equal length and no row changed
(including the case where both are empty), the diff is empty. -/
theorem createPatches_no_change (p n : ResultSet) (hlen : p.length = n.length)
    (hnone : ∀ i < p.length, changedAt p n i = false) :
    createPatches (some p) n = [] := by
  rw [createPatches_some]
  by_cases h0 : p.length = 0 ∧ n.length = 0
  · rw [if_pos h0]
  · have hne : ¬ p.length ≠ n.length := by omega
    have hops : diffRows 0 p n = [] := by
      rw [diffRows_zero_eq p n hlen,
        List.filter_eq_nil_iff.mpr fun j hj => by
          simp [hnone j (List.mem_range.mp hj)]]
      rfl
    rw [if_neg h0, if_neg hne, hops]
    simp

/-- Witness for C6 at previous = next = `[{a:1}]`. -/
theorem createPatches_no_change_witness :
    createPatches (some [[("a", Value.num 1)]]) [[("a", Value.num 1)]] = [] :=
  createPatches_no_change [[("a", Value.num 1)]] [[("a", Value.num 1)]]
    (by decide) (by decide)

/-- C3: if previous and next have equal non-zero length and every row
changed, the diff collapses to the single patch `[ReplaceAll next]`. -/
theorem createPatches_all_changed (p n : ResultSet) (hlen : p.length = n.length)
    (hpos : n.length ≠ 0) (hall : ∀ i < p.length, changedAt p n i = true) :
    createPatches (some p) n = [Patch.replaceAll n] := by
  have h0 : ¬(p.length = 0 ∧ n.length = 0) := by omega
  have hne : ¬ p.length ≠ n.length := by omega
  have hfil :
      (List.range p.length).filter (fun j => changedAt p n j)
        = List.range p.length :=
    List.filter_eq_self.mpr fun j hj => hall j (List.mem_range.mp hj)
  have hlenops : (diffRows 0 p n).length = p.length := by
    rw [diffRows_zero_eq p n hlen, List.length_map, hfil, List.length_range]
  have hz : (diffRows 0 p n).length ≠ 0 := by rw [hlenops]; omega
  rw [createPatches_some, if_neg h0, if_neg hne, if_neg hz, if_pos hlenops]

/-- Witness for C3 at previous = `[{a:1}]`, next = `[{a:2}]`. -/
theorem createPatches_all_changed_witness :
    createPatches (some [[("a", Value.num 1)]]) [[("a", Value.num 2)]]
      = [Patch.replaceAll [[("a", Value.num 2)]]] :=
  createPatches_all_changed [[("a", Value.num 1)]] [[("a", Value.num 2)]]
    (by decide) (by decide) (by decide)

/-- C2: if previous and next have equal non-zero length and at least one
but not every row changed, the diff is exactly one `ReplaceAt(i, next[i])`
per changed row, in ascending index order and nothing else. -/
theorem createPatches_partial_change (p n : ResultSet)
    (hlen : p.length = n.length) (hpos : 0 < p.length)
    (hsome : ∃ i, i < p.length ∧ changedAt p n i = true)
    (hnotall : ∃ i, i < p.length ∧ changedAt p n i = false) :
    createPatches (some p) n =
      ((List.range p.length).filter (fun i => changedAt p n i)).map
        (fun i => Patch.replaceAt i (n.getD i [])) := by
  obtain ⟨i₁, hi₁, hc₁⟩ := hsome
  obtain ⟨i₂, hi₂, hc₂⟩ := hnotall
  have h0 : ¬(p.length = 0 ∧ n.length = 0) := by omega
  have hne : ¬ p.length ≠ n.length := by omega
  have hchar := diffRows_zero_eq p n hlen
  have hmem : i₁ ∈ (List.range p.length).filter (fun j => changedAt p n j) :=
    List.mem_filter.mpr ⟨List.mem_range.mpr hi₁, hc₁⟩
  have hz : (diffRows 0 p n).length ≠ 0 := by
    rw [hchar, List.length_map]
    exact fun hcon => List.ne_nil_of_mem hmem (List.length_eq_zero.mp hcon)
  have hfull : (diffRows 0 p n).length ≠ p.length := by
    rw [hchar, List.length_map]
    intro hcon
    have hall : ∀ j ∈ List.range p.length, changedAt p n j := by
      apply List.countP_eq_length.mp
      rw [List.countP_eq_length_filter, hcon, List.length_range]
    have := hall i₂ (List.mem_range.mpr hi₂)
    exact absurd this (by simp [hc₂])
  rw [createPatches_some, if_neg h0, if_neg hne, if_neg hz, if_neg hfull]
  exact hchar

/-- Witness for C2 at previous = `[{a:1},{a:2},{a:3}]`,
next = `[{a:1},{a:9},{a:3}]`: the diff is `[ReplaceAt(1, {a:9})]`. -/
theorem createPatches_partial_change_witness :
    createPatches
        (some [[("a", Value.num 1)], [("a", Value.num 2)], [("a", Value.num 3)]])
        [[("a", Value.num 1)], [("a", Value.num 9)], [("a", Value.num 3)]]
      = [Patch.replaceAt 1 [("a", Value.num 9)]] := by
  have h := createPatches_partial_change
    [[("a", Value.num 1)], [("a", Value.num 2)], [("a", Value.num 3)]]
    [[("a", Value.num 1)], [("a", Value.num 9)], [("a", Value.num 3)]]
    (by decide) (by decide) ⟨1, by decide⟩ ⟨0, by decide⟩
  rw [h]
  decide

/-- Every patch the differencer's loop emits is a `replaceAt`. -/
theorem mem_diffRows_shape :
    ∀ (i : Nat) (p n : ResultSet) (patch : Patch),
      patch ∈ diffRows i p n → ∃ j v, patch = Patch.replaceAt j v := by
  intro i p
  induction p generalizing i with
  | nil => intro n patch hmem; simp [diffRows] at hmem
  | cons pr ps ih =>
    intro n patch hmem
    cases n with
    | nil => simp [diffRows] at hmem
    | cons nr ns =>
      simp only [diffRows, List.mem_append] at hmem
      rcases hmem with hmem | hmem
      · by_cases hc : rowChanged pr nr
        · rw [if_pos hc, List.mem_singleton] at hmem
          exact ⟨i, nr, hmem⟩
        · rw [if_neg hc] at hmem
          simp at hmem
      · exact ih (i + 1) ns patch hmem

/-- The indices carried by the loop's patches are exactly the changed
indices, in the order `List.range` lists them. -/
theorem diffRows_zero_indices (p n : ResultSet) (h : p.length = n.length) :
    (diffRows 0 p n).filterMap patchIdx
      = (List.range p.length).filter (fun j => changedAt p n j) := by
  rw [diffRows_zero_eq p n h, List.filterMap_map]
  have hcomp : (patchIdx ∘ fun j => Patch.replaceAt j (n.getD j [])) = some := by
    funext j; rfl
  rw [hcomp, List.filterMap_some]

/-- C1 (counterexample): the round-trip fails as universally stated.  With
previous = `[{a:1}]` and next = `[{a:1,b:2}]` the lengths agree and every
field of the previous row is unchanged, so the diff is `[]` and applying it
returns the previous result, not next. -/
theorem createPatches_roundtrip_cex :
    applyPatches
        (createPatches (some [[("a", Value.num 1)]])
          [[("a", Value.num 1), ("b", Value.num 2)]])
        (some [[("a", Value.num 1)]])
      ≠ some [[("a", Value.num 1), ("b", Value.num 2)]] := by decide

/-- C1 (amended): the round-trip
`apply(diff(previous, next))(previous) == next` holds for every previous
(including `Unknown`) and next, provided that when previous is a concrete
result set of the same length as next, corresponding rows carry the same
field names in the same order, without duplicates.  (Without that shape
condition a row whose next version adds a field can be reported
unchanged.) -/
theorem applyPatches_createPatches_roundtrip (previous : Option ResultSet)
    (next : ResultSet)
    (h : ∀ p, previous = some p → p.length = next.length →
      List.Forall₂
        (fun pr nr => pr.map Prod.fst = nr.map Prod.fst ∧ (pr.map Prod.fst).Nodup)
        p next) :
    applyPatches (createPatches previous next) previous = some next := by
  cases previous with
  | none => rfl
  | some p =>
    by_cases hlen : p.length = next.length
    · have hkeys := h p rfl hlen
      have hrt :
          List.Forall₂ (fun pr nr => rowChanged pr nr = false → pr = nr) p next :=
        hkeys.imp fun a b hab hc => row_eq_of_unchanged a b hab.1 hab.2 hc
      have happ := applyPatches_diffRows p next hrt []
      simp only [List.nil_append, List.length_nil] at happ
      rw [createPatches_some]
      by_cases h0 : p.length = 0 ∧ next.length = 0
      · rw [if_pos h0]
        have hp : p = [] := List.length_eq_zero.mp h0.1
        have hn : next = [] := List.length_eq_zero.mp h0.2
        subst hp; subst hn; rfl
      · rw [if_neg h0, if_neg (by omega : ¬ p.length ≠ next.length)]
        by_cases hz : (diffRows 0 p next).length = 0
        · rw [if_pos hz]
          have hopsnil : diffRows 0 p next = [] := List.length_eq_zero.mp hz
          rw [hopsnil] at happ
          exact happ
        · rw [if_neg hz]
          by_cases hfull : (diffRows 0 p next).length = p.length
          · rw [if_pos hfull]; rfl
          · rw [if_neg hfull]; exact happ
    · rw [createPatches_some,
        if_neg (by omega : ¬(p.length = 0 ∧ next.length = 0)), if_pos hlen]
      rfl

/-- Witness for the amended C1 at previous = `[{a:1},{a:2}]`,
next = `[{a:1},{a:9}]` (a genuine partial-change diff). -/
theorem applyPatches_createPatches_roundtrip_witness :
    applyPatches
        (createPatches (some [[("a", Value.num 1)], [("a", Value.num 2)]])
          [[("a", Value.num 1)], [("a", Value.num 9)]])
        (some [[("a", Value.num 1)], [("a", Value.num 2)]])
      = some [[("a", Value.num 1)], [("a", Value.num 9)]] := by
  apply applyPatches_createPatches_roundtrip
  intro p hp _
  cases hp
  exact List.Forall₂.cons ⟨rfl, by decide⟩
    (List.Forall₂.cons ⟨rfl, by decide⟩ List.Forall₂.nil)

/-- C7: an unknown held result absorbs a `ReplaceAt` patch as a no-op,
while `ReplaceAll` and `Purge` take effect unconditionally; in particular
applying `[Purge, Purge]` to anything yields `Unknown`. -/
theorem applyPatches_unknown_and_unconditional :
    (∀ (i : Nat) (row : Row),
        applyPatches [Patch.replaceAt i row] none = none) ∧
    (∀ (current : Option ResultSet) (v : ResultSet),
        applyPatches [Patch.replaceAll v] current = some v) ∧
    (∀ current : Option ResultSet, applyPatches [Patch.purge] current = none) ∧
    (∀ current : Option ResultSet,
        applyPatches [Patch.purge, Patch.purge] current = none) :=
  ⟨fun _ _ => rfl, fun _ _ => rfl, fun _ => rfl, fun _ => rfl⟩

/-- C8: applying `[ReplaceAt(i, v)]` to a known result with `i` in range
yields a result of the same length whose row at `i` is `v` and whose other
rows are unchanged (the input itself is not mutated: the applier builds a
new list). -/
theorem applyPatches_replaceAt_frame (current : ResultSet) (i : Nat) (v : Row)
    (h : i < current.length) :
    ∃ result,
      applyPatches [Patch.replaceAt i v] (some current) = some result ∧
      result.length = current.length ∧
      result.get? i = some v ∧
      ∀ j, j ≠ i → result.get? j = current.get? j := by
  refine ⟨current.set i v, rfl, by simp, ?_, ?_⟩
  · simp [List.get?_eq_getElem?, List.getElem?_set_self', List.getElem?_eq_getElem h]
  · intro j hj
    simp only [List.get?_eq_getElem?]
    rw [List.getElem?_set_ne fun he => hj he.symm]

/-- Witness for C8 at current = `[{a:1},{b:2}]`, i = 0, v = `{a:9}`. -/
theorem applyPatches_replaceAt_frame_witness :
    0 < ([[("a", Value.num 1)], [("b", Value.num 2)]] : ResultSet).length ∧
    ∃ result,
      applyPatches [Patch.replaceAt 0 [("a", Value.num 9)]]
          (some [[("a", Value.num 1)], [("b", Value.num 2)]]) = some result ∧
      result.length = ([[("a", Value.num 1)], [("b", Value.num 2)]] : ResultSet).length ∧
      result.get? 0 = some [("a", Value.num 9)] ∧
      ∀ j, j ≠ 0 →
        result.get? j = ([[("a", Value.num 1)], [("b", Value.num 2)]] : ResultSet).get? j :=
  ⟨by decide,
    applyPatches_replaceAt_frame [[("a", Value.num 1)], [("b", Value.num 2)]] 0
      [("a", Value.num 9)] (by decide)⟩

/-- C9: the differencer never emits a `Purge` patch, for any inputs. -/
theorem createPatches_never_purge (previous : Option ResultSet) (next : ResultSet) :
    Patch.purge ∉ createPatches previous next := by
  cases previous with
  | none => simp [createPatches]
  | some p =>
    intro hmem
    rw [createPatches_some] at hmem
    split at hmem
    · simp at hmem
    · split at hmem
      · simp at hmem
      · split at hmem
        · simp at hmem
        · split at hmem
          · simp at hmem
          · obtain ⟨j, v, hjv⟩ := mem_diffRows_shape 0 p next Patch.purge hmem
            simp at hjv

/-- C10: the diff output has exactly one of three shapes: empty, a single
`ReplaceAll(next)`, or a non-empty list consisting solely of `ReplaceAt`
patches with strictly ascending indices whose count is strictly below the
common length of previous and next. -/
theorem createPatches_output_shape (previous : Option ResultSet) (next : ResultSet) :
    createPatches previous next = [] ∨
    createPatches previous next = [Patch.replaceAll next] ∨
    (∃ p, previous = some p ∧ p.length = next.length ∧
      createPatches previous next ≠ [] ∧
      (createPatches previous next).length < next.length ∧
      (∀ patch ∈ createPatches previous next, ∃ i v, patch = Patch.replaceAt i v) ∧
      List.Pairwise (· < ·) ((createPatches previous next).filterMap patchIdx)) := by
  cases previous with
  | none => right; left; rfl
  | some p =>
    rw [createPatches_some]
    by_cases h0 : p.length = 0 ∧ next.length = 0
    · left; rw [if_pos h0]
    · by_cases hne2 : p.length ≠ next.length
      · right; left; rw [if_neg h0, if_pos hne2]
      · have hlen : p.length = next.length := by omega
        by_cases hz : (diffRows 0 p next).length = 0
        · left; rw [if_neg h0, if_neg hne2, if_pos hz]
        · by_cases hfull : (diffRows 0 p next).length = p.length
          · right; left; rw [if_neg h0, if_neg hne2, if_neg hz, if_pos hfull]
          · right; right
            rw [if_neg h0, if_neg hne2, if_neg hz, if_neg hfull]
            have hle : (diffRows 0 p next).length ≤ p.length := by
              rw [diffRows_zero_eq p next hlen, List.length_map]
              have := List.length_filter_le
                (fun j => changedAt p next j) (List.range p.length)
              simpa using this
            refine ⟨p, rfl, hlen, ?_, ?_, ?_, ?_⟩
            · exact fun hcon => hz (by rw [hcon]; rfl)
            · omega
            · exact fun patch hmem => mem_diffRows_shape 0 p next patch hmem
            · rw [diffRows_zero_indices p next hlen]
              exact (List.pairwise_lt_range _).sublist (List.filter_sublist _)
